import Mathlib

/-!
Verification of the search core and feature extractor of `play_game.py`
(repository `FelixDobro/Chess_RF`).

The file shallowly embeds the two algorithmic functions of the source:

* `negamax(board, alpha, beta, model, depth)` — negated minimax with
  alpha-beta pruning (source lines 174–199);
* `extract_features(board)` — the 37-entry feature vector (lines 20–171).

The rules engine (`python-chess`) and the regression model are external
collaborators; they are represented by interface structures (`Game`,
`Board`) exposing exactly the queries the source code performs on them.
Scores use an extended domain with `±∞`, mirroring the `float("inf")`
sentinels of the source; finite model outputs are modelled as integers.

Layout: all definitions first, then all theorems.
-/

namespace ChessRF

/-! ### Score domain -/

/-- Extended score domain: finite model outputs together with the
`-float("inf")` / `float("inf")` sentinels used by `negamax`. -/
inductive Score where
  | negInf : Score
  | fin : Int → Score
  | posInf : Score
deriving DecidableEq, Repr

namespace Score

/-- Ordering of extended scores. -/
def le : Score → Score → Prop
  | negInf, _ => True
  | fin _, negInf => False
  | fin a, fin b => a ≤ b
  | fin _, posInf => True
  | posInf, negInf => False
  | posInf, fin _ => False
  | posInf, posInf => True

def decLe : (a b : Score) → Decidable (le a b)
  | negInf, negInf => isTrue trivial
  | negInf, fin _ => isTrue trivial
  | negInf, posInf => isTrue trivial
  | fin _, negInf => isFalse id
  | fin a, fin b => inferInstanceAs (Decidable (a ≤ b))
  | fin _, posInf => isTrue trivial
  | posInf, negInf => isFalse id
  | posInf, fin _ => isFalse id
  | posInf, posInf => isTrue trivial

instance : LinearOrder Score where
  le := le
  le_refl a := by cases a <;> simp [le]
  le_trans a b c := by cases a <;> cases b <;> cases c <;> simp [le] <;> omega
  le_antisymm a b := by cases a <;> cases b <;> simp [le] <;> omega
  le_total a b := by cases a <;> cases b <;> simp [le] <;> omega
  decidableLE := decLe

/-- Negation of an extended score. -/
def neg : Score → Score
  | negInf => posInf
  | fin v => fin (-v)
  | posInf => negInf

instance : Neg Score := ⟨neg⟩

end Score

/-! ### Search engine -/

/-- Interface of the external collaborators consumed by `negamax`
(rules engine queries plus the scoring model): legal-move enumeration,
move application and undo, terminality, side to move, and the leaf
evaluation pipeline `model.predict([extract_features(board)])[0]`,
split into the feature extraction `extractF` and the black-box scoring
function `evaluate`. -/
structure Game (Pos Move : Type) where
  legalMoves : Pos → List Move
  push : Pos → Move → Pos
  pop : Pos → Pos
  isGameOver : Pos → Bool
  turnWhite : Pos → Bool
  extractF : Pos → List Int
  evaluate : List Int → Int

variable {Pos Move : Type}

/-- Leaf evaluation of `negamax` (source lines 176–179):
`eval = model.predict([extract_features(board)])[0]`, negated when Black
is to move (`score = eval if board.turn == chess.WHITE else -eval`). -/
def leafScore (g : Game Pos Move) (p : Pos) : Score :=
  let eval : Int := g.evaluate (g.extractF p)
  let score : Int := if g.turnWhite p then eval else -eval
  Score.fin score

/-- The move loop of `negamax` (source lines 185–197), with the recursive
call abstracted as `f`.  The accumulator mirrors the Python local state:
`maxEval` (`max_eval`), `bestMove` (`best_move`), and the window
`(alpha, beta)`.  A move's value is the negated score of the child
searched with the negated, swapped window; `max_eval`/`best_move` update
on a strict improvement; `alpha = max(alpha, eval)`; the loop breaks as
soon as `alpha >= beta`. -/
def nmLoop (g : Game Pos Move) (f : Pos → Score → Score → Score × Option Move) (p : Pos) :
    List Move → Score → Score → Score → Option Move → Score × Option Move
  | [], _, _, maxEval, bestMove => (maxEval, bestMove)
  | m :: ms, alpha, beta, maxEval, bestMove =>
    let eval := -(f (g.push p m) (-beta) (-alpha)).1
    let maxEval' := if maxEval < eval then eval else maxEval
    let bestMove' := if maxEval < eval then some m else bestMove
    let alpha' := max alpha eval
    if beta ≤ alpha' then (maxEval', bestMove')
    else nmLoop g f p ms alpha' beta maxEval' bestMove'

/-- `negamax(board, alpha, beta, model, depth)` (source lines 174–199),
functional embedding: children are generated by `push`; the stateful
push/pop discipline of the source is modelled separately by
`negamaxSt`.  At `depth == 0` or a terminal position it returns
`(leaf score, None)`; otherwise it runs the alpha-beta move loop
starting from `max_eval = -inf`, `best_move = None`. -/
def negamax (g : Game Pos Move) : Nat → Pos → Score → Score → Score × Option Move
  | 0, p, _, _ => (leafScore g p, none)
  | d + 1, p, alpha, beta =>
    if g.isGameOver p then (leafScore g p, none)
    else nmLoop g (fun q a b => negamax g d q a b) p (g.legalMoves p) alpha beta Score.negInf none

/-- Move loop of the reference unpruned search: same generation order,
same strict-improvement update of `max_eval`/`best_move`, no window and
no cutoff.  This definition follows the spec's words (a "reference full
(unpruned) minimax of the same depth and move order") and is the
comparison point for the refinement claim. -/
def fullLoop (g : Game Pos Move) (f : Pos → Score) (p : Pos) :
    List Move → Score → Option Move → Score × Option Move
  | [], maxEval, bestMove => (maxEval, bestMove)
  | m :: ms, maxEval, bestMove =>
    let eval := -(f (g.push p m))
    if maxEval < eval then fullLoop g f p ms eval (some m)
    else fullLoop g f p ms maxEval bestMove

/-- Reference full-width negamax of the spec: identical to `negamax`
except that no alpha-beta window is kept and no sibling is ever skipped. -/
def minimaxFull (g : Game Pos Move) : Nat → Pos → Score × Option Move
  | 0, p => (leafScore g p, none)
  | d + 1, p =>
    if g.isGameOver p then (leafScore g p, none)
    else fullLoop g (fun q => (minimaxFull g d q).1) p (g.legalMoves p) Score.negInf none

/-- Result of the instrumented search `negamaxI`: besides the score and
best move of `negamax` it records the `(alpha, beta)` window of every
invocation of the call tree (`calls`, the own call included) and, for
the root node of the call, the `(move, negated child score)` pairs of
the moves actually examined before the loop stopped (`examined`). -/
structure NmResult (Move : Type) where
  score : Score
  best : Option Move
  calls : List (Score × Score)
  examined : List (Move × Score)

/-- Instrumented variant of `nmLoop`; the computation is identical, with
window and examined-move bookkeeping added. -/
def nmLoopI (g : Game Pos Move) (f : Pos → Score → Score → NmResult Move) (p : Pos) :
    List Move → Score → Score → Score → Option Move → NmResult Move
  | [], _, _, maxEval, bestMove => ⟨maxEval, bestMove, [], []⟩
  | m :: ms, alpha, beta, maxEval, bestMove =>
    let r := f (g.push p m) (-beta) (-alpha)
    let eval := -r.score
    let maxEval' := if maxEval < eval then eval else maxEval
    let bestMove' := if maxEval < eval then some m else bestMove
    let alpha' := max alpha eval
    if beta ≤ alpha' then ⟨maxEval', bestMove', r.calls, [(m, eval)]⟩
    else
      let rest := nmLoopI g f p ms alpha' beta maxEval' bestMove'
      ⟨rest.score, rest.best, r.calls ++ rest.calls, (m, eval) :: rest.examined⟩

/-- Instrumented variant of `negamax`: same computation, plus the window
trace and the examined-move record. -/
def negamaxI (g : Game Pos Move) : Nat → Pos → Score → Score → NmResult Move
  | 0, p, alpha, beta => ⟨leafScore g p, none, [(alpha, beta)], []⟩
  | d + 1, p, alpha, beta =>
    if g.isGameOver p then ⟨leafScore g p, none, [(alpha, beta)], []⟩
    else
      let out := nmLoopI g (fun q a b => negamaxI g d q a b) p (g.legalMoves p) alpha beta
        Score.negInf none
      ⟨out.score, out.best, (alpha, beta) :: out.calls, out.examined⟩

/-- Stateful embedding of the `negamax` move loop: the board is a single
threaded value, mutated by `push` before the recursive call (which
returns the board state it leaves behind) and restored by `pop`
afterwards, exactly as in the source (lines 185–189). -/
def nmLoopSt (g : Game Pos Move) (f : Pos → Score → Score → Score × Option Move × Pos) :
    Pos → List Move → Score → Score → Score → Option Move → Score × Option Move × Pos
  | b, [], _, _, maxEval, bestMove => (maxEval, bestMove, b)
  | b, m :: ms, alpha, beta, maxEval, bestMove =>
    let pushed := g.push b m
    let r := f pushed (-beta) (-alpha)
    let eval := -r.1
    let popped := g.pop r.2.2
    let maxEval' := if maxEval < eval then eval else maxEval
    let bestMove' := if maxEval < eval then some m else bestMove
    let alpha' := max alpha eval
    if beta ≤ alpha' then (maxEval', bestMove', popped)
    else nmLoopSt g f popped ms alpha' beta maxEval' bestMove'

/-- Stateful embedding of `negamax`: returns the score, the best move,
and the board state left behind by the call. -/
def negamaxSt (g : Game Pos Move) : Nat → Pos → Score → Score → Score × Option Move × Pos
  | 0, p, _, _ => (leafScore g p, none, p)
  | d + 1, p, alpha, beta =>
    if g.isGameOver p then (leafScore g p, none, p)
    else nmLoopSt g (fun q a b => negamaxSt g d q a b) p (g.legalMoves p) alpha beta
      Score.negInf none

/-- Folding `max` of `f` over a move list, starting from `M`; the value
computed by the unpruned move loop and the yardstick of the alpha-beta
soundness bounds. -/
def maxFold (f : Move → Score) (ms : List Move) (M : Score) : Score :=
  ms.foldl (fun a m => max a (f m)) M

/-- The rules-engine consistency assumption of the spec (§4.2): a
position with no legal moves is flagged terminal. -/
def RulesConsistent (g : Game Pos Move) : Prop :=
  ∀ q, g.isGameOver q = false → g.legalMoves q ≠ []

/-- A tiny concrete game used to instantiate the search theorems: a
position is the list of moves played (most recent first), the game ends
after two moves, and each non-terminal position offers moves `0` and
`1`.  `push` conses, `pop` drops the most recent move. -/
def toyGame : Game (List Nat) Nat where
  legalMoves p := if 2 ≤ p.length then [] else [0, 1]
  push p m := m :: p
  pop p := p.tail
  isGameOver p := decide (2 ≤ p.length)
  turnWhite p := p.length % 2 == 0
  extractF p := [(p.length : Int), ((p.foldl (· + ·) 0 : Nat) : Int)]
  evaluate xs := xs.foldl (· + ·) 0

/-! ### Feature extractor -/

inductive PieceType where
  | pawn | knight | bishop | rook | queen | king
deriving DecidableEq, Repr

structure Piece where
  color : Bool
  ptype : PieceType
deriving DecidableEq, Repr

/-- The keys of `PIECE_VALUES`, in dictionary insertion order. -/
def PIECE_VALUES_keys : List PieceType :=
  [PieceType.pawn, PieceType.knight, PieceType.bishop, PieceType.rook, PieceType.queen]

/-- `PIECE_VALUES.get(ptype, 0)`: the standard relative weights, with
default `0` for the king (absent from the dictionary). -/
def pieceValue : PieceType → Int
  | PieceType.pawn => 1
  | PieceType.knight => 3
  | PieceType.bishop => 3
  | PieceType.rook => 5
  | PieceType.queen => 9
  | PieceType.king => 0

/-- `CENTER_SQUARES = [chess.D4, chess.E4, chess.D5, chess.E5]`. -/
def CENTER_SQUARES : List Nat := [27, 28, 35, 36]

/-- `chess.square_file(sq)` (as an integer, since Python file arithmetic
`file + offset` may go negative). -/
def fileOf (sq : Nat) : Int := ((sq % 8 : Nat) : Int)

/-- `chess.square_rank(sq)`. -/
def rankOf (sq : Nat) : Nat := sq / 8

/-- Interface of the rules-engine queries performed by
`extract_features`: occupancy, attacker sets, castling rights, king
squares, side to move, mobility and the full-move counter.
`chess.WHITE` is `true`, `chess.BLACK` is `false`; squares are indices
`0..63`. -/
structure Board where
  pieceAt : Nat → Option Piece
  attackers : Bool → Nat → List Nat
  hasKingsideCastlingRights : Bool → Bool
  hasQueensideCastlingRights : Bool → Bool
  kingSq : Bool → Nat
  turn : Bool
  legalMovesCount : Nat
  fullmoveNumber : Nat

/-- A pair of values indexed by colour, modelling the Python dicts keyed
by `chess.WHITE` / `chess.BLACK`. -/
structure ByColor (X : Type) where
  white : X
  black : X

def ByColor.get {X : Type} (v : ByColor X) (c : Bool) : X :=
  if c then v.white else v.black

def ByColor.upd {X : Type} (v : ByColor X) (c : Bool) (f : X → X) : ByColor X :=
  if c then { v with white := f v.white } else { v with black := f v.black }

/-- The per-square accumulators of `extract_features` (source lines
23–37). -/
structure FeatAcc where
  materialWhite : Int
  materialBlack : Int
  pieceCounts : ByColor (PieceType → Int)
  centerWhite : Int
  centerBlack : Int
  whiteInBlackHalf : Int
  blackInWhiteHalf : Int
  pawnFiles : ByColor (Finset Int)
  allPawns : ByColor (List Nat)
  openFiles : Finset Int
  halfopenFiles : ByColor (Finset Int)
  outpostKnights : ByColor Int
  developedMinors : ByColor Int
  defendedPieces : ByColor Int

/-- Initial accumulator state: all counts `0`, all pawn sets empty,
`open_files = set(range(8))`. -/
def initAcc : FeatAcc where
  materialWhite := 0
  materialBlack := 0
  pieceCounts := ⟨fun _ => 0, fun _ => 0⟩
  centerWhite := 0
  centerBlack := 0
  whiteInBlackHalf := 0
  blackInWhiteHalf := 0
  pawnFiles := ⟨∅, ∅⟩
  allPawns := ⟨[], []⟩
  openFiles := {0, 1, 2, 3, 4, 5, 6, 7}
  halfopenFiles := ⟨∅, ∅⟩
  outpostKnights := ⟨0, 0⟩
  developedMinors := ⟨0, 0⟩
  defendedPieces := ⟨0, 0⟩

/-- Material block (source lines 51–56). -/
def matBlock (piece : Piece) (acc : FeatAcc) : FeatAcc :=
  let value := pieceValue piece.ptype
  if piece.color then { acc with materialWhite := acc.materialWhite + value }
  else { acc with materialBlack := acc.materialBlack + value }

/-- Piece-count block (source lines 58–60): `if ptype in PIECE_VALUES`. -/
def countBlock (piece : Piece) (acc : FeatAcc) : FeatAcc :=
  if piece.ptype ∈ PIECE_VALUES_keys then
    { acc with pieceCounts :=
        acc.pieceCounts.upd piece.color (fun f => Function.update f piece.ptype (f piece.ptype + 1)) }
  else acc

/-- Centre-control block (source lines 62–67). -/
def centerBlock (sq : Nat) (piece : Piece) (acc : FeatAcc) : FeatAcc :=
  if sq ∈ CENTER_SQUARES then
    if piece.color then { acc with centerWhite := acc.centerWhite + 1 }
    else { acc with centerBlack := acc.centerBlack + 1 }
  else acc

/-- Opponent-half block (source lines 69–73). -/
def halfBlock (sq : Nat) (piece : Piece) (acc : FeatAcc) : FeatAcc :=
  if piece.color = true ∧ 4 ≤ rankOf sq then
    { acc with whiteInBlackHalf := acc.whiteInBlackHalf + 1 }
  else if piece.color = false ∧ rankOf sq ≤ 3 then
    { acc with blackInWhiteHalf := acc.blackInWhiteHalf + 1 }
  else acc

/-- Pawn-analysis block (source lines 75–80). -/
def pawnBlock (sq : Nat) (piece : Piece) (acc : FeatAcc) : FeatAcc :=
  if piece.ptype = PieceType.pawn then
    { acc with
      pawnFiles := acc.pawnFiles.upd piece.color (insert (fileOf sq))
      allPawns := acc.allPawns.upd piece.color (fun l => l ++ [sq])
      openFiles := acc.openFiles.erase (fileOf sq)
      halfopenFiles := acc.halfopenFiles.upd piece.color (insert (fileOf sq)) }
  else acc

/-- Outpost-knight block (source lines 82–88): a knight in the opposing
half none of whose current opposing attackers is a pawn. -/
def outpostBlock (b : Board) (sq : Nat) (piece : Piece) (acc : FeatAcc) : FeatAcc :=
  if piece.ptype = PieceType.knight ∧
      ((piece.color = true ∧ 4 ≤ rankOf sq) ∨ (piece.color = false ∧ rankOf sq ≤ 3)) then
    let atk := b.attackers (!piece.color) sq
    if ¬ (atk.any fun a =>
        match b.pieceAt a with
        | some q => decide (q.ptype = PieceType.pawn)
        | none => false) then
      { acc with outpostKnights := acc.outpostKnights.upd piece.color (fun n => n + 1) }
    else acc
  else acc

/-- Development block (source lines 90–93): minor pieces off the home
rank. -/
def devBlock (sq : Nat) (piece : Piece) (acc : FeatAcc) : FeatAcc :=
  if piece.ptype ∈ [PieceType.bishop, PieceType.knight] ∧
      ((piece.color = true ∧ 0 < rankOf sq) ∨ (piece.color = false ∧ rankOf sq < 7)) then
    { acc with developedMinors := acc.developedMinors.upd piece.color (fun n => n + 1) }
  else acc

/-- Defended-piece block (source lines 95–97). -/
def defBlock (b : Board) (sq : Nat) (piece : Piece) (acc : FeatAcc) : FeatAcc :=
  if 0 < (b.attackers piece.color sq).length then
    { acc with defendedPieces := acc.defendedPieces.upd piece.color (fun n => n + 1) }
  else acc

/-- One iteration of the per-square loop (source lines 42–97): skip
empty squares, otherwise run the accumulator blocks in source order.
(The `attackers_cache` built on line 39 is never read by the source, so
it is not modelled.) -/
def featStep (b : Board) (acc : FeatAcc) (sq : Nat) : FeatAcc :=
  match b.pieceAt sq with
  | none => acc
  | some piece =>
    defBlock b sq piece
      (devBlock sq piece
        (outpostBlock b sq piece
          (pawnBlock sq piece
            (halfBlock sq piece
              (centerBlock sq piece
                (countBlock piece
                  (matBlock piece acc)))))))

/-- The accumulator state after the full pass over `chess.SQUARES`. -/
def featAcc (b : Board) : FeatAcc :=
  (List.range 64).foldl (featStep b) initAcc

/-- Pawn count of colour `c` on file `f`, from the accumulated pawn list
(`len([sq for sq in all_pawns[color] if chess.square_file(sq) == file])`). -/
def pawnCountOnFile (acc : FeatAcc) (c : Bool) (f : Int) : Nat :=
  (acc.allPawns.get c).countP (fun sq => fileOf sq == f)

/-- One colour's contribution to the doubled-pawn feature (source lines
136–140): one per file occupied by that colour holding more than one of
its pawns. -/
def doubledSummand (acc : FeatAcc) (c : Bool) : Int :=
  Finset.sum (acc.pawnFiles.get c) (fun f => if 1 < pawnCountOnFile acc c f then 1 else 0)

/-- The doubled-pawn feature: Python sums the booleans over both colours
(`for color in [chess.WHITE, chess.BLACK]`). -/
def doubledFeature (acc : FeatAcc) : Int :=
  doubledSummand acc true + doubledSummand acc false

/-- One colour's contribution to the isolated-pawn feature (source lines
142–150). -/
def isolatedSummand (acc : FeatAcc) (c : Bool) : Int :=
  Finset.sum (acc.pawnFiles.get c)
    (fun f => if ∀ o ∈ ([-1, 1] : List Int), f + o ∉ acc.pawnFiles.get c then 1 else 0)

/-- The isolated-pawn feature, summed over both colours. -/
def isolatedFeature (acc : FeatAcc) : Int :=
  isolatedSummand acc true + isolatedSummand acc false

/-- `extract_features(board)` (source lines 20–171): the feature vector,
in source order. -/
def extract_features (b : Board) : List Int :=
  let acc := featAcc b
  [ acc.materialWhite,
    acc.materialBlack,
    acc.materialWhite - acc.materialBlack,
    acc.pieceCounts.get true PieceType.pawn, acc.pieceCounts.get false PieceType.pawn,
    acc.pieceCounts.get true PieceType.knight, acc.pieceCounts.get false PieceType.knight,
    acc.pieceCounts.get true PieceType.bishop, acc.pieceCounts.get false PieceType.bishop,
    acc.pieceCounts.get true PieceType.rook, acc.pieceCounts.get false PieceType.rook,
    acc.pieceCounts.get true PieceType.queen, acc.pieceCounts.get false PieceType.queen,
    if b.hasKingsideCastlingRights true then 1 else 0,
    if b.hasQueensideCastlingRights true then 1 else 0,
    if b.hasKingsideCastlingRights false then 1 else 0,
    if b.hasQueensideCastlingRights false then 1 else 0,
    (b.kingSq true : Int),
    (b.kingSq false : Int),
    if b.turn then 1 else 0,
    acc.centerWhite, acc.centerBlack,
    acc.whiteInBlackHalf, acc.blackInWhiteHalf,
    (b.legalMovesCount : Int),
    (b.fullmoveNumber : Int),
    doubledFeature acc,
    isolatedFeature acc,
    ((acc.halfopenFiles.get true).card : Int), ((acc.halfopenFiles.get false).card : Int),
    (acc.openFiles.card : Int),
    acc.outpostKnights.get true, acc.outpostKnights.get false,
    acc.developedMinors.get true, acc.developedMinors.get false,
    acc.defendedPieces.get true, acc.defendedPieces.get false ]

/-- The squares of `0..63` holding a pawn of colour `c`, in square
order: the raw-board counterpart of the accumulated `all_pawns[c]`. -/
def pawnSquares (b : Board) (c : Bool) : List Nat :=
  (List.range 64).filter (fun sq => decide (b.pieceAt sq = some ⟨c, PieceType.pawn⟩))

/-- Pawn count of colour `c` on file `f`, read off the raw board. -/
def rawPawnsOnFile (b : Board) (c : Bool) (f : Int) : Nat :=
  (pawnSquares b c).countP (fun sq => fileOf sq == f)

/-- Material contributed to `material_white` by square `sq`. -/
def whiteContrib (b : Board) (sq : Nat) : Int :=
  match b.pieceAt sq with
  | some p => if p.color then pieceValue p.ptype else 0
  | none => 0

/-- Material contributed to `material_black` by square `sq`. -/
def blackContrib (b : Board) (sq : Nat) : Int :=
  match b.pieceAt sq with
  | some p => if p.color then 0 else pieceValue p.ptype
  | none => 0

/-- Vertical reflection of a square (rank flipped, file kept). -/
def mirrorSq (sq : Nat) : Nat := 8 * (7 - sq / 8) + sq % 8

/-- The mirror of a position, as described by the spec: sides swapped
and the board geometry flipped, otherwise identical. -/
def mirrorBoard (b : Board) : Board where
  pieceAt sq := (b.pieceAt (mirrorSq sq)).map (fun p => ⟨!p.color, p.ptype⟩)
  attackers c sq := (b.attackers (!c) (mirrorSq sq)).map mirrorSq
  hasKingsideCastlingRights c := b.hasKingsideCastlingRights (!c)
  hasQueensideCastlingRights c := b.hasQueensideCastlingRights (!c)
  kingSq c := mirrorSq (b.kingSq (!c))
  turn := !b.turn
  legalMovesCount := b.legalMovesCount
  fullmoveNumber := b.fullmoveNumber

/-- A concrete board: white pawns a2 and a3 (squares 8 and 16, both on
file 0), kings e1 and e8.  Used to instantiate the doubled-pawn
theorem. -/
def doubledBoard : Board where
  pieceAt sq :=
    if sq = 8 ∨ sq = 16 then some ⟨true, PieceType.pawn⟩
    else if sq = 4 then some ⟨true, PieceType.king⟩
    else if sq = 60 then some ⟨false, PieceType.king⟩
    else none
  attackers _ _ := []
  hasKingsideCastlingRights _ := false
  hasQueensideCastlingRights _ := false
  kingSq c := if c then 4 else 60
  turn := true
  legalMovesCount := 10
  fullmoveNumber := 1

/-! ### Score lemmas -/

namespace Score

theorem le_def (a b : Score) : (a ≤ b) = le a b := rfl

@[simp] theorem neg_negInf : -negInf = posInf := rfl
@[simp] theorem neg_posInf : -posInf = negInf := rfl
@[simp] theorem neg_fin (v : Int) : -(fin v) = fin (-v) := rfl

@[simp] theorem neg_neg (a : Score) : -(-a) = a := by
  cases a <;> simp

@[simp] theorem negInf_le (a : Score) : negInf ≤ a := trivial

@[simp] theorem le_posInf (a : Score) : a ≤ posInf := by
  cases a <;> trivial

@[simp] theorem fin_le_fin {a b : Int} : fin a ≤ fin b ↔ a ≤ b := Iff.rfl

@[simp] theorem not_posInf_le_fin (v : Int) : ¬ posInf ≤ fin v := id

@[simp] theorem not_fin_le_negInf (v : Int) : ¬ fin v ≤ negInf := id

@[simp] theorem not_posInf_le_negInf : ¬ posInf ≤ negInf := id

theorem negLe_iff {a b : Score} : -a ≤ -b ↔ b ≤ a := by
  cases a <;> cases b <;> simp [le_def, le]

theorem negLt_iff {a b : Score} : -a < -b ↔ b < a := by
  rw [lt_iff_le_not_le, lt_iff_le_not_le, negLe_iff, negLe_iff]

@[simp] theorem negInf_lt_fin (v : Int) : negInf < fin v :=
  ⟨trivial, id⟩

@[simp] theorem fin_lt_posInf (v : Int) : fin v < posInf :=
  ⟨le_posInf _, id⟩

@[simp] theorem negInf_lt_posInf : negInf < posInf :=
  ⟨trivial, id⟩

theorem negInf_lt_iff {a : Score} : negInf < a ↔ a ≠ negInf := by
  cases a <;> simp

theorem lt_posInf_iff {a : Score} : a < posInf ↔ a ≠ posInf := by
  cases a <;> simp

/-- The source's `if eval > max_eval then eval else max_eval` agrees with `max`. -/
theorem ite_lt_eq_max (a b : Score) : (if a < b then b else a) = max a b := by
  rcases lt_or_ge a b with h | h
  · simp [h, max_eq_right h.le]
  · simp [not_lt_of_ge h, max_eq_left h]

/-- `max` of finite-or-`-∞` scores is never `+∞`. -/
theorem max_ne_posInf {a b : Score} (ha : a ≠ posInf) (hb : b ≠ posInf) :
    max a b ≠ posInf := by
  rcases max_choice a b with h | h <;> rw [h] <;> assumption

theorem ite_negInf_lt (e : Score) : (if negInf < e then e else negInf) = e := by
  rcases eq_or_ne e negInf with rfl | h
  · simp
  · simp [negInf_lt_iff.mpr h]

theorem le_neg_comm {a b : Score} : a ≤ -b ↔ b ≤ -a := by
  cases a <;> cases b <;> simp [le_def, le] <;> omega

theorem neg_le_comm {a b : Score} : -a ≤ b ↔ -b ≤ a := by
  cases a <;> cases b <;> simp [le_def, le] <;> omega

theorem lt_neg_comm {a b : Score} : a < -b ↔ b < -a := by
  rw [lt_iff_le_not_le, lt_iff_le_not_le, le_neg_comm, neg_le_comm]

theorem neg_lt_comm {a b : Score} : -a < b ↔ -b < a := by
  rw [lt_iff_le_not_le, lt_iff_le_not_le, le_neg_comm, neg_le_comm]

end Score

/-! ### Search-engine lemmas -/

/-- `toyGame` satisfies the rules-engine consistency contract. -/
theorem toyGame_consistent : RulesConsistent toyGame := by
  intro q h
  simp only [toyGame, decide_eq_false_iff_not, not_le] at h
  simp only [toyGame]
  rw [if_neg (by omega)]
  simp

/-- C2: at a leaf call (`depth == 0` or a terminal position), `negamax`
returns the pair `(s, None)` without recursing, where `s` is the scoring
function applied to `extract_features(P)`, negated exactly when Black is
the side to move. -/
theorem negamax_leaf_eval (g : Game Pos Move) (d : Nat) (p : Pos) (alpha beta : Score)
    (h : d = 0 ∨ g.isGameOver p = true) :
    negamax g d p alpha beta =
      (Score.fin (if g.turnWhite p then g.evaluate (g.extractF p)
                  else -(g.evaluate (g.extractF p))), none) := by
  have hleaf : leafScore g p =
      Score.fin (if g.turnWhite p then g.evaluate (g.extractF p)
                 else -(g.evaluate (g.extractF p))) := by
    simp only [leafScore]
  rcases h with rfl | h
  · rw [negamax, hleaf]
  · cases d with
    | zero => rw [negamax, hleaf]
    | succ d => rw [negamax, if_pos h, hleaf]

/-- Witness for C2: a terminal `toyGame` position (two moves played),
searched at nonzero depth, evaluates to the sign-adjusted leaf score
with no move. -/
theorem negamax_leaf_eval_witness :
    negamax toyGame 3 [0, 0] Score.negInf Score.posInf = (Score.fin 2, none) := by
  have h := negamax_leaf_eval toyGame 3 [0, 0] Score.negInf Score.posInf (Or.inr (by decide))
  simpa using h

/-- The stateful move loop hands back the board it was given, provided
the recursive call does so and `pop` undoes `push`. -/
theorem nmLoopSt_restores (g : Game Pos Move)
    (f : Pos → Score → Score → Score × Option Move × Pos)
    (hf : ∀ q a b, (f q a b).2.2 = q)
    (hpp : ∀ q m, g.pop (g.push q m) = q) :
    ∀ ms b alpha beta M best, (nmLoopSt g f b ms alpha beta M best).2.2 = b := by
  intro ms
  induction ms with
  | nil => intro b alpha beta M best; rfl
  | cons m ms ih =>
    intro b alpha beta M best
    simp only [nmLoopSt, hf, hpp]
    split
    · rfl
    · exact ih ..

/-- C5: after any `negamax` call returns, the position is exactly the
position that was passed in — every pushed move has been popped.  The
hypothesis is the rules-engine undo contract `undo(apply(p, m)) == p`
(spec §6). -/
theorem negamaxSt_restores (g : Game Pos Move)
    (hpp : ∀ q m, g.pop (g.push q m) = q) :
    ∀ d p alpha beta, (negamaxSt g d p alpha beta).2.2 = p := by
  intro d
  induction d with
  | zero => intro p alpha beta; rfl
  | succ d ih =>
    intro p alpha beta
    rw [negamaxSt]
    split
    · rfl
    · exact nmLoopSt_restores g _ (fun q a b => ih q a b) hpp ..

/-- Witness for C5: a concrete stateful search on `toyGame` returns the
original position unchanged. -/
theorem negamaxSt_restores_witness :
    (negamaxSt toyGame 2 [] Score.negInf Score.posInf).2.2 = [] :=
  negamaxSt_restores toyGame (fun _ _ => rfl) 2 [] Score.negInf Score.posInf

/-- Counterexample for C7: called with `alpha = 1 > 0 = beta` — an
invalid window — `negamax` does not fail: it proceeds with the search
(the instrumented run shows a move was examined, i.e. a child was
searched) and returns an ordinary `(score, move)` result. The source
has no precondition check of any kind. -/
theorem negamax_no_failfast_cex :
    Score.fin 0 < Score.fin 1 ∧
    negamax toyGame 1 [] (Score.fin 1) (Score.fin 0) = (Score.fin 1, some 0) ∧
    (negamaxI toyGame 1 [] (Score.fin 1) (Score.fin 0)).examined = [(0, Score.fin 1)] := by
  refine ⟨by decide, by decide, by decide⟩

/-- C7 (amended): `negamax` performs no parameter validation.  With
`alpha > beta` on entry at a non-leaf node it silently proceeds: it
examines exactly the first legal move (the first updated alpha is
already `≥ beta`, so the loop cuts off immediately) and returns that
move's value as an ordinary result. -/
theorem negamax_silently_proceeds (g : Game Pos Move) (d : Nat) (p : Pos)
    (alpha beta : Score) (m : Move) (ms : List Move)
    (hba : beta < alpha) (hgo : g.isGameOver p = false) (hlm : g.legalMoves p = m :: ms) :
    negamax g (d + 1) p alpha beta =
      (-(negamax g d (g.push p m) (-beta) (-alpha)).1,
        if Score.negInf < -(negamax g d (g.push p m) (-beta) (-alpha)).1
        then some m else none) ∧
    (negamaxI g (d + 1) p alpha beta).examined =
      [(m, -(negamaxI g d (g.push p m) (-beta) (-alpha)).score)] := by
  have hcut : ∀ e : Score, beta ≤ max alpha e :=
    fun e => le_trans hba.le (le_max_left _ _)
  constructor
  · rw [negamax, if_neg (by simp [hgo]), hlm, nmLoop]
    simp only [if_pos (hcut _)]
    rw [Score.ite_negInf_lt]
  · rw [negamaxI, if_neg (by simp [hgo]), hlm, nmLoopI]
    simp only [if_pos (hcut _)]

/-- Witness for C7's amended theorem, at the concrete invalid window
`alpha = 1 > 0 = beta` on `toyGame`. -/
theorem negamax_silently_proceeds_witness :
    negamax toyGame 1 [] (Score.fin 1) (Score.fin 0) =
      (-(negamax toyGame 0 ([0]) (-(Score.fin 0)) (-(Score.fin 1))).1,
        if Score.negInf < -(negamax toyGame 0 ([0]) (-(Score.fin 0)) (-(Score.fin 1))).1
        then some 0 else none) ∧
    (negamaxI toyGame 1 [] (Score.fin 1) (Score.fin 0)).examined =
      [(0, -(negamaxI toyGame 0 ([0]) (-(Score.fin 0)) (-(Score.fin 1))).score)] :=
  negamax_silently_proceeds toyGame 0 [] (Score.fin 1) (Score.fin 0) 0 [1]
    (by decide) (by decide) (by decide)

/-- If every child score produced by `f` is finite and the running
maximum is finite, the loop's score is finite. -/
theorem nmLoop_fin (g : Game Pos Move) (f : Pos → Score → Score → Score × Option Move)
    (p : Pos) (hf : ∀ q a b, ∃ v, (f q a b).1 = Score.fin v) :
    ∀ ms alpha beta M best,
      (∃ v, M = Score.fin v) ∨ (M = Score.negInf ∧ ms ≠ []) →
      ∃ v, (nmLoop g f p ms alpha beta M best).1 = Score.fin v := by
  intro ms
  induction ms with
  | nil =>
    intro alpha beta M best h
    rcases h with h | ⟨_, h⟩
    · exact h
    · exact absurd rfl h
  | cons m ms ih =>
    intro alpha beta M best h
    obtain ⟨w, hw⟩ := hf (g.push p m) (-beta) (-alpha)
    rw [nmLoop]
    have hM' : ∃ v, (if M < -(f (g.push p m) (-beta) (-alpha)).1 then
        -(f (g.push p m) (-beta) (-alpha)).1 else M) = Score.fin v := by
      rcases h with ⟨v, rfl⟩ | ⟨rfl, _⟩
      · split
        · exact ⟨-w, by rw [hw]; rfl⟩
        · exact ⟨v, rfl⟩
      · rw [if_pos (by rw [hw]; exact Score.negInf_lt_fin _)]
        exact ⟨-w, by rw [hw]; rfl⟩
    split
    · exact hM'
    · exact ih _ _ _ _ (Or.inl hM')

/-- Under the rules-engine consistency contract, every `negamax` score
is finite: the `-inf` initialisation can never survive to the returned
value. -/
theorem negamax_fin (g : Game Pos Move) (hWf : RulesConsistent g) :
    ∀ d p alpha beta, ∃ v, (negamax g d p alpha beta).1 = Score.fin v := by
  intro d
  induction d with
  | zero =>
    intro p alpha beta
    exact ⟨_, rfl⟩
  | succ d ih =>
    intro p alpha beta
    rw [negamax]
    split
    · exact ⟨_, rfl⟩
    · refine nmLoop_fin g _ p (fun q a b => ih q a b) _ alpha beta _ none (Or.inr ⟨rfl, ?_⟩)
      next hgo => exact hWf p (by simpa using hgo)

/-- Once the loop's best move is non-null it stays non-null. -/
theorem nmLoop_some (g : Game Pos Move) (f : Pos → Score → Score → Score × Option Move)
    (p : Pos) :
    ∀ ms alpha beta M best, best ≠ none →
      (nmLoop g f p ms alpha beta M best).2 ≠ none := by
  intro ms
  induction ms with
  | nil => intro alpha beta M best h; exact h
  | cons m ms ih =>
    intro alpha beta M best h
    rw [nmLoop]
    have hb : (if M < -(f (g.push p m) (-beta) (-alpha)).1 then some m else best) ≠ none := by
      split
      · exact Option.some_ne_none m
      · exact h
    split
    · exact hb
    · exact ih _ _ _ _ hb

/-- C6: with depth `>= 1`, a non-terminal position, and at least one
legal move, `negamax` returns a non-null move.  (The hypothesis
`RulesConsistent` is the spec's §4.2 assumption that the rules engine
never reports non-terminal with zero legal moves; it guarantees that
every child score is finite, so the first examined move already beats
the `-inf` initialisation.) -/
theorem negamax_move_not_none (g : Game Pos Move) (hWf : RulesConsistent g)
    (d : Nat) (p : Pos) (alpha beta : Score) (hd : 1 ≤ d)
    (hgo : g.isGameOver p = false) (hne : g.legalMoves p ≠ []) :
    (negamax g d p alpha beta).2 ≠ none := by
  obtain ⟨d', rfl⟩ : ∃ d', d = d' + 1 := ⟨d - 1, by omega⟩
  rw [negamax, if_neg (by simp [hgo])]
  rcases hms : g.legalMoves p with _ | ⟨m, ms⟩
  · exact absurd hms hne
  · rw [nmLoop]
    obtain ⟨w, hw⟩ := negamax_fin g hWf d' (g.push p m) (-beta) (-alpha)
    have hlt : Score.negInf < -(negamax g d' (g.push p m) (-beta) (-alpha)).1 := by
      rw [hw]; exact Score.negInf_lt_fin _
    rw [if_pos hlt]
    split
    · exact Option.some_ne_none m
    · exact nmLoop_some g _ p _ _ _ _ _ (Option.some_ne_none m)

/-- Witness for C6: a depth-2 search from the empty `toyGame` position
(non-terminal, two legal moves) returns a non-null move. -/
theorem negamax_move_not_none_witness :
    (negamax toyGame 2 [] Score.negInf Score.posInf).2 ≠ none :=
  negamax_move_not_none toyGame toyGame_consistent 2 [] Score.negInf Score.posInf
    (by decide) (by decide) (by decide)

/-- Every window recorded by the instrumented loop is valid, provided
the loop is entered with `alpha <= beta` and the recursive call
preserves validity. -/
theorem nmLoopI_calls_valid (g : Game Pos Move) (f : Pos → Score → Score → NmResult Move)
    (p : Pos) (hf : ∀ q a b, a ≤ b → ∀ w ∈ (f q a b).calls, w.1 ≤ w.2) :
    ∀ ms alpha beta M best, alpha ≤ beta →
      ∀ w ∈ (nmLoopI g f p ms alpha beta M best).calls, w.1 ≤ w.2 := by
  intro ms
  induction ms with
  | nil => intro alpha beta M best _ w hw; simp [nmLoopI] at hw
  | cons m ms ih =>
    intro alpha beta M best hab w hw
    have hchild : ∀ w ∈ (f (g.push p m) (-beta) (-alpha)).calls, w.1 ≤ w.2 :=
      hf _ _ _ (Score.negLe_iff.mpr hab)
    rw [nmLoopI] at hw
    split at hw
    · exact hchild w hw
    · next h =>
      simp only [List.mem_append] at hw
      rcases hw with hw | hw
      · exact hchild w hw
      · exact ih _ _ _ _ (le_of_lt (lt_of_not_ge h)) w hw

/-- All windows of the instrumented call tree are valid when the root
window is. -/
theorem negamaxI_calls_valid (g : Game Pos Move) :
    ∀ d p alpha beta, alpha ≤ beta →
      ∀ w ∈ (negamaxI g d p alpha beta).calls, w.1 ≤ w.2 := by
  intro d
  induction d with
  | zero =>
    intro p alpha beta hab w hw
    rw [negamaxI] at hw
    simp only [List.mem_singleton] at hw
    subst hw
    exact hab
  | succ d ih =>
    intro p alpha beta hab w hw
    rw [negamaxI] at hw
    split at hw
    · simp only [List.mem_singleton] at hw
      subst hw
      exact hab
    · simp only [List.mem_cons] at hw
      rcases hw with rfl | hw
      · exact hab
      · exact nmLoopI_calls_valid g _ p (fun q a b hab' => ih q a b hab') _ _ _ _ _ hab w hw

/-- Cutoff characterisation of the instrumented loop: the examined
moves form a prefix of the move list; every non-final examined move left
the updated alpha below beta; and the loop stopped before exhausting the
moves only with the updated alpha at or above beta. -/
theorem nmLoopI_cutoff (g : Game Pos Move) (f : Pos → Score → Score → NmResult Move)
    (p : Pos) :
    ∀ ms alpha beta M best,
      ((nmLoopI g f p ms alpha beta M best).examined.map Prod.fst =
        ms.take (nmLoopI g f p ms alpha beta M best).examined.length) ∧
      (∀ i, i + 1 < (nmLoopI g f p ms alpha beta M best).examined.length →
        ¬ beta ≤ ((((nmLoopI g f p ms alpha beta M best).examined.map Prod.snd).take (i + 1)).foldl
          max alpha)) ∧
      ((nmLoopI g f p ms alpha beta M best).examined.length < ms.length →
        beta ≤ (((nmLoopI g f p ms alpha beta M best).examined.map Prod.snd).foldl max alpha)) := by
  intro ms
  induction ms with
  | nil =>
    intro alpha beta M best
    refine ⟨rfl, ?_, ?_⟩
    · intro i hi
      simp [nmLoopI] at hi
    · intro hlen
      simp [nmLoopI] at hlen
  | cons m ms ih =>
    intro alpha beta M best
    rw [nmLoopI]
    split
    · next hcut =>
      refine ⟨rfl, ?_, ?_⟩
      · intro i hi
        simp at hi
      · intro _
        simpa using hcut
    · next hnocut =>
      obtain ⟨ih1, ih2, ih3⟩ := ih (max alpha (-(f (g.push p m) (-beta) (-alpha)).score)) beta
        (if M < -(f (g.push p m) (-beta) (-alpha)).score
          then -(f (g.push p m) (-beta) (-alpha)).score else M)
        (if M < -(f (g.push p m) (-beta) (-alpha)).score then some m else best)
      refine ⟨?_, ?_, ?_⟩
      · simpa [List.take_succ_cons] using ih1
      · intro i hi
        match i with
        | 0 =>
          simpa using hnocut
        | i + 1 =>
          simp only [List.length_cons, add_lt_add_iff_right] at hi
          simpa [List.take_succ_cons] using ih2 i hi
      · intro hlen
        simp only [List.length_cons, add_lt_add_iff_right] at hlen
        simpa using ih3 hlen

/-- C3: under `alpha <= beta` at the outermost call, every recursive
invocation (recorded by the instrumented search) satisfies
`alpha <= beta` on entry; and at a non-leaf node the examined moves are
a prefix of the legal moves such that every examined move but possibly
the last left the running `alpha = max(alpha, value)` strictly below
`beta`, while stopping before the end of the move list happens only with
the running alpha at or above beta — i.e. the loop is cut off exactly
when, after the alpha update, `alpha >= beta`. -/
theorem negamax_window_invariant (g : Game Pos Move) (d : Nat) (p : Pos)
    (alpha beta : Score) (hab : alpha ≤ beta) :
    (∀ w ∈ (negamaxI g d p alpha beta).calls, w.1 ≤ w.2) ∧
    (∀ d', d = d' + 1 → g.isGameOver p = false →
      (((negamaxI g d p alpha beta).examined.map Prod.fst =
          (g.legalMoves p).take (negamaxI g d p alpha beta).examined.length) ∧
        (∀ i, i + 1 < (negamaxI g d p alpha beta).examined.length →
          ¬ beta ≤ ((((negamaxI g d p alpha beta).examined.map Prod.snd).take (i + 1)).foldl
            max alpha)) ∧
        ((negamaxI g d p alpha beta).examined.length < (g.legalMoves p).length →
          beta ≤ (((negamaxI g d p alpha beta).examined.map Prod.snd).foldl max alpha)))) := by
  refine ⟨negamaxI_calls_valid g d p alpha beta hab, ?_⟩
  rintro d' rfl hgo
  rw [negamaxI, if_neg (by simp [hgo])]
  exact nmLoopI_cutoff g _ p (g.legalMoves p) alpha beta Score.negInf none

/-- Witness for C3, at the root call `toyGame`, depth 2, full window. -/
theorem negamax_window_invariant_witness :
    (∀ w ∈ (negamaxI toyGame 2 [] Score.negInf Score.posInf).calls, w.1 ≤ w.2) ∧
    (∀ d', 2 = d' + 1 → toyGame.isGameOver [] = false →
      (((negamaxI toyGame 2 [] Score.negInf Score.posInf).examined.map Prod.fst =
          (toyGame.legalMoves []).take
            (negamaxI toyGame 2 [] Score.negInf Score.posInf).examined.length) ∧
        (∀ i, i + 1 < (negamaxI toyGame 2 [] Score.negInf Score.posInf).examined.length →
          ¬ Score.posInf ≤
            ((((negamaxI toyGame 2 [] Score.negInf Score.posInf).examined.map
              Prod.snd).take (i + 1)).foldl max Score.negInf)) ∧
        ((negamaxI toyGame 2 [] Score.negInf Score.posInf).examined.length <
            (toyGame.legalMoves []).length →
          Score.posInf ≤ (((negamaxI toyGame 2 [] Score.negInf
            Score.posInf).examined.map Prod.snd).foldl max Score.negInf)))) :=
  negamax_window_invariant toyGame 2 [] Score.negInf Score.posInf (by decide)

/-- The instrumented loop computes the same score and best move as the
plain loop. -/
theorem nmLoopI_agrees (g : Game Pos Move) (fI : Pos → Score → Score → NmResult Move)
    (fP : Pos → Score → Score → Score × Option Move) (p : Pos)
    (hf : ∀ q a b, (fI q a b).score = (fP q a b).1) :
    ∀ ms alpha beta M best,
      (nmLoopI g fI p ms alpha beta M best).score = (nmLoop g fP p ms alpha beta M best).1 ∧
      (nmLoopI g fI p ms alpha beta M best).best = (nmLoop g fP p ms alpha beta M best).2 := by
  intro ms
  induction ms with
  | nil => intro alpha beta M best; exact ⟨rfl, rfl⟩
  | cons m ms ih =>
    intro alpha beta M best
    rw [nmLoopI, nmLoop, hf]
    split
    · exact ⟨rfl, rfl⟩
    · exact ih _ _ _ _

/-- The instrumented search computes the same score and best move as
`negamax`. -/
theorem negamaxI_agrees (g : Game Pos Move) :
    ∀ d p alpha beta,
      (negamaxI g d p alpha beta).score = (negamax g d p alpha beta).1 ∧
      (negamaxI g d p alpha beta).best = (negamax g d p alpha beta).2 := by
  intro d
  induction d with
  | zero => intro p alpha beta; exact ⟨rfl, rfl⟩
  | succ d ih =>
    intro p alpha beta
    rw [negamaxI, negamax]
    split
    · exact ⟨rfl, rfl⟩
    · exact nmLoopI_agrees g _ _ p (fun q a b => (ih q a b).1) _ _ _ _ _

/-- First-strict-improvement characterisation of the examined moves:
the loop's score is the max of the starting value and the examined
values; if no examined value beats the start, score and best move are
unchanged; otherwise the best move is the earliest examined move whose
value equals the final score, and every earlier examined value is
strictly below it. -/
theorem nmLoopI_first_max (g : Game Pos Move) (f : Pos → Score → Score → NmResult Move)
    (p : Pos) :
    ∀ ms alpha beta M best,
      ((nmLoopI g f p ms alpha beta M best).score =
        ((nmLoopI g f p ms alpha beta M best).examined.map Prod.snd).foldl max M) ∧
      ((∀ e ∈ (nmLoopI g f p ms alpha beta M best).examined.map Prod.snd, e ≤ M) →
        (nmLoopI g f p ms alpha beta M best).best = best ∧
        (nmLoopI g f p ms alpha beta M best).score = M) ∧
      ((∃ e ∈ (nmLoopI g f p ms alpha beta M best).examined.map Prod.snd, M < e) →
        ∃ i mv, (nmLoopI g f p ms alpha beta M best).examined.get? i = some mv ∧
          (nmLoopI g f p ms alpha beta M best).best = some mv.1 ∧
          mv.2 = (nmLoopI g f p ms alpha beta M best).score ∧
          M < (nmLoopI g f p ms alpha beta M best).score ∧
          (∀ j pr, j < i → (nmLoopI g f p ms alpha beta M best).examined.get? j = some pr →
            pr.2 < (nmLoopI g f p ms alpha beta M best).score) ∧
          (∀ j pr, (nmLoopI g f p ms alpha beta M best).examined.get? j = some pr →
            pr.2 ≤ (nmLoopI g f p ms alpha beta M best).score)) := by
  intro ms
  induction ms with
  | nil =>
    intro alpha beta M best
    refine ⟨rfl, fun _ => ⟨rfl, rfl⟩, ?_⟩
    rintro ⟨e, he, -⟩
    simp [nmLoopI] at he
  | cons m ms ih =>
    intro alpha beta M best
    by_cases hcut : beta ≤ max alpha (-(f (g.push p m) (-beta) (-alpha)).score)
    · by_cases hMe : M < -(f (g.push p m) (-beta) (-alpha)).score
      · simp only [nmLoopI, if_pos hcut, if_pos hMe, List.map_cons, List.map_nil,
          List.foldl_cons, List.foldl_nil, List.mem_cons, List.not_mem_nil, or_false,
          List.mem_singleton]
        refine ⟨(max_eq_right hMe.le).symm, ?_, ?_⟩
        · intro h
          exact absurd hMe (not_lt_of_ge (h _ rfl))
        · intro _
          refine ⟨0, (m, -(f (g.push p m) (-beta) (-alpha)).score), ?_, ?_, ?_, ?_, ?_, ?_⟩
          rotate_right 2
          rotate_left 2
          · rfl
          · rfl
          · rfl
          · exact hMe
          · intro j pr hji _
            omega
          · intro j pr hpr
            match j with
            | 0 =>
              rw [List.get?_cons_zero] at hpr
              cases hpr
              exact le_refl _
            | j + 1 =>
              rw [List.get?_cons_succ, List.get?_nil] at hpr
              cases hpr
      · simp only [nmLoopI, if_pos hcut, if_neg hMe, List.map_cons, List.map_nil,
          List.foldl_cons, List.foldl_nil, List.mem_cons, List.not_mem_nil, or_false,
          List.mem_singleton]
        refine ⟨(max_eq_left (le_of_not_lt hMe)).symm, fun _ => by simp, ?_⟩
        rintro ⟨e, rfl, hMlt⟩
        exact absurd hMlt hMe
    · by_cases hMe : M < -(f (g.push p m) (-beta) (-alpha)).score
      · obtain ⟨ih1, ih2, ih3⟩ := ih (max alpha (-(f (g.push p m) (-beta) (-alpha)).score))
          beta (-(f (g.push p m) (-beta) (-alpha)).score) (some m)
        simp only [nmLoopI, if_neg hcut, if_pos hMe, List.map_cons, List.foldl_cons,
          List.mem_cons]
        refine ⟨?_, ?_, ?_⟩
        · rw [ih1, max_eq_right hMe.le]
        · intro h
          exact absurd hMe (not_lt_of_ge (h _ (Or.inl rfl)))
        · intro _
          by_cases hrest : ∀ e ∈ (nmLoopI g f p ms
              (max alpha (-(f (g.push p m) (-beta) (-alpha)).score)) beta
              (-(f (g.push p m) (-beta) (-alpha)).score)
              (some m)).examined.map Prod.snd, e ≤ -(f (g.push p m) (-beta) (-alpha)).score
          · obtain ⟨hb, hs⟩ := ih2 hrest
            refine ⟨0, (m, -(f (g.push p m) (-beta) (-alpha)).score), rfl, ?_, hs.symm,
              ?_, ?_, ?_⟩
            · rw [hb]
            · rw [hs]; exact hMe
            · intro j pr hji _
              omega
            · intro j pr hpr
              match j with
              | 0 =>
                rw [List.get?_cons_zero] at hpr
                cases hpr
                exact le_of_eq hs.symm
              | j + 1 =>
                rw [List.get?_cons_succ] at hpr
                have hmem : pr ∈ (nmLoopI g f p ms
                    (max alpha (-(f (g.push p m) (-beta) (-alpha)).score)) beta
                    (-(f (g.push p m) (-beta) (-alpha)).score)
                    (some m)).examined := List.get?_mem hpr
                have hle := hrest _ (List.mem_map_of_mem Prod.snd hmem)
                exact le_trans hle (le_of_eq hs.symm)
          · push_neg at hrest
            obtain ⟨i, mv, hget, hb, hsnd, hlt, hprev, hall⟩ := ih3 hrest
            refine ⟨i + 1, mv, by rw [List.get?_cons_succ]; exact hget, hb, hsnd,
              lt_trans hMe hlt, ?_, ?_⟩
            · intro j pr hji hpr
              match j with
              | 0 =>
                rw [List.get?_cons_zero] at hpr
                cases hpr
                exact hlt
              | j + 1 =>
                rw [List.get?_cons_succ] at hpr
                exact hprev j pr (by omega) hpr
            · intro j pr hpr
              match j with
              | 0 =>
                rw [List.get?_cons_zero] at hpr
                cases hpr
                exact hlt.le
              | j + 1 =>
                rw [List.get?_cons_succ] at hpr
                exact hall j pr hpr
      · obtain ⟨ih1, ih2, ih3⟩ := ih (max alpha (-(f (g.push p m) (-beta) (-alpha)).score))
          beta M best
        have he : -(f (g.push p m) (-beta) (-alpha)).score ≤ M := le_of_not_lt hMe
        simp only [nmLoopI, if_neg hcut, if_neg hMe, List.map_cons, List.foldl_cons,
          List.mem_cons]
        refine ⟨?_, ?_, ?_⟩
        · rw [ih1, max_eq_left he]
        · intro h
          exact ih2 (fun e hmem => h e (Or.inr hmem))
        · rintro ⟨e, hmem, hMlt⟩
          rcases hmem with rfl | hmem
          · exact absurd hMlt hMe
          · obtain ⟨i, mv, hget, hb, hsnd, hlt, hprev, hall⟩ := ih3 ⟨e, hmem, hMlt⟩
            refine ⟨i + 1, mv, by rw [List.get?_cons_succ]; exact hget, hb, hsnd, hlt,
              ?_, ?_⟩
            · intro j pr hji hpr
              match j with
              | 0 =>
                rw [List.get?_cons_zero] at hpr
                cases hpr
                exact lt_of_le_of_lt he hlt
              | j + 1 =>
                rw [List.get?_cons_succ] at hpr
                exact hprev j pr (by omega) hpr
            · intro j pr hpr
              match j with
              | 0 =>
                rw [List.get?_cons_zero] at hpr
                cases hpr
                exact (lt_of_le_of_lt he hlt).le
              | j + 1 =>
                rw [List.get?_cons_succ] at hpr
                exact hall j pr hpr

/-- The first examined move of a non-empty move loop is the head of the
move list, valued at its negated child score. -/
theorem nmLoopI_examined_head (g : Game Pos Move) (f : Pos → Score → Score → NmResult Move)
    (p : Pos) (m : Move) (ms : List Move) (alpha beta M : Score) (best : Option Move) :
    (nmLoopI g f p (m :: ms) alpha beta M best).examined.get? 0 =
      some (m, -(f (g.push p m) (-beta) (-alpha)).score) := by
  by_cases hcut : beta ≤ max alpha (-(f (g.push p m) (-beta) (-alpha)).score)
  · simp only [nmLoopI, if_pos hcut]
    rfl
  · simp only [nmLoopI, if_neg hcut]
    rfl

/-- C10: at a non-leaf call, the returned `best_move` is the earliest
examined move attaining the maximal examined value: only a strictly
greater value updates `best_move` (`eval > max_eval`), so a later move
that merely ties never replaces an earlier best move.  Stated via the
instrumented run: some examined move attains the returned score, every
earlier examined value is strictly below it, and no examined value
exceeds it. -/
theorem negamax_best_earliest_max (g : Game Pos Move) (hWf : RulesConsistent g)
    (d : Nat) (p : Pos) (alpha beta : Score) (hd : 1 ≤ d)
    (hgo : g.isGameOver p = false) (hne : g.legalMoves p ≠ []) :
    ∃ i mv, (negamaxI g d p alpha beta).examined.get? i = some mv ∧
      (negamaxI g d p alpha beta).best = some mv.1 ∧
      mv.2 = (negamaxI g d p alpha beta).score ∧
      (∀ j pr, j < i → (negamaxI g d p alpha beta).examined.get? j = some pr →
        pr.2 < (negamaxI g d p alpha beta).score) ∧
      (∀ j pr, (negamaxI g d p alpha beta).examined.get? j = some pr →
        pr.2 ≤ (negamaxI g d p alpha beta).score) := by
  obtain ⟨d', rfl⟩ : ∃ d', d = d' + 1 := ⟨d - 1, by omega⟩
  rw [negamaxI, if_neg (by simp [hgo])]
  rcases hms : g.legalMoves p with _ | ⟨m, ms⟩
  · exact absurd hms hne
  · obtain ⟨-, -, hex⟩ := nmLoopI_first_max g (fun q a b => negamaxI g d' q a b) p
      (m :: ms) alpha beta Score.negInf none
    obtain ⟨v, hv⟩ := negamax_fin g hWf d' (g.push p m) (-beta) (-alpha)
    have hvI : (negamaxI g d' (g.push p m) (-beta) (-alpha)).score =
        (negamax g d' (g.push p m) (-beta) (-alpha)).1 :=
      (negamaxI_agrees g d' (g.push p m) (-beta) (-alpha)).1
    have hhead := nmLoopI_examined_head g (fun q a b => negamaxI g d' q a b) p m ms
      alpha beta Score.negInf none
    have hmem : -(negamaxI g d' (g.push p m) (-beta) (-alpha)).score ∈
        (nmLoopI g (fun q a b => negamaxI g d' q a b) p (m :: ms) alpha beta
          Score.negInf none).examined.map Prod.snd := by
      have := List.get?_mem hhead
      exact List.mem_map_of_mem Prod.snd this
    have hpos : Score.negInf < -(negamaxI g d' (g.push p m) (-beta) (-alpha)).score := by
      rw [hvI, hv]
      exact Score.negInf_lt_fin _
    obtain ⟨i, mv, hget, hb, hsnd, -, hprev, hall⟩ := hex ⟨_, hmem, hpos⟩
    exact ⟨i, mv, hget, hb, hsnd, hprev, hall⟩

/-- Witness for C10, at the root call `toyGame`, depth 2, full window. -/
theorem negamax_best_earliest_max_witness :
    ∃ i mv,
      (negamaxI toyGame 2 [] Score.negInf Score.posInf).examined.get? i = some mv ∧
      (negamaxI toyGame 2 [] Score.negInf Score.posInf).best = some mv.1 ∧
      mv.2 = (negamaxI toyGame 2 [] Score.negInf Score.posInf).score ∧
      (∀ j pr, j < i →
        (negamaxI toyGame 2 [] Score.negInf Score.posInf).examined.get? j = some pr →
        pr.2 < (negamaxI toyGame 2 [] Score.negInf Score.posInf).score) ∧
      (∀ j pr,
        (negamaxI toyGame 2 [] Score.negInf Score.posInf).examined.get? j = some pr →
        pr.2 ≤ (negamaxI toyGame 2 [] Score.negInf Score.posInf).score) :=
  negamax_best_earliest_max toyGame toyGame_consistent 2 [] Score.negInf Score.posInf
    (by decide) (by decide) (by decide)

theorem le_maxFold (f : Move → Score) : ∀ ms M, M ≤ maxFold f ms M := by
  intro ms
  induction ms with
  | nil => intro M; exact le_refl M
  | cons m ms ih =>
    intro M
    exact le_trans (le_max_left M (f m)) (ih (max M (f m)))

theorem maxFold_mono (f : Move → Score) :
    ∀ ms {M M'}, M ≤ M' → maxFold f ms M ≤ maxFold f ms M' := by
  intro ms
  induction ms with
  | nil => intro M M' h; exact h
  | cons m ms ih =>
    intro M M' h
    exact ih (max_le_max h (le_refl (f m)))

theorem maxFold_decomp (f : Move → Score) :
    ∀ ms M, maxFold f ms M = max M (maxFold f ms Score.negInf) := by
  intro ms
  induction ms with
  | nil =>
    intro M
    exact (max_eq_left (Score.negInf_le M)).symm
  | cons m ms ih =>
    intro M
    show maxFold f ms (max M (f m)) = max M (maxFold f ms (max Score.negInf (f m)))
    rw [ih (max M (f m)), ih (max Score.negInf (f m)),
      max_eq_right (Score.negInf_le (f m)), max_assoc]

/-- The score of the unpruned loop is the running max of the negated
child values. -/
theorem fullLoop_score (g : Game Pos Move) (f : Pos → Score) (p : Pos) :
    ∀ ms M best, (fullLoop g f p ms M best).1 =
      maxFold (fun m => -(f (g.push p m))) ms M := by
  intro ms
  induction ms with
  | nil => intro M best; rfl
  | cons m ms ih =>
    intro M best
    rw [fullLoop]
    show _ = maxFold (fun m => -(f (g.push p m))) ms (max M (-(f (g.push p m))))
    split
    · next h =>
      rw [ih, max_eq_right h.le]
    · next h =>
      rw [ih, max_eq_left (le_of_not_lt h)]

/-- The pruned loop's score never drops below the running maximum it
starts from. -/
theorem nmLoop_ge (g : Game Pos Move) (f : Pos → Score → Score → Score × Option Move)
    (p : Pos) :
    ∀ ms alpha beta M best, M ≤ (nmLoop g f p ms alpha beta M best).1 := by
  intro ms
  induction ms with
  | nil => intro alpha beta M best; exact le_refl M
  | cons m ms ih =>
    intro alpha beta M best
    rw [nmLoop]
    split
    · split
      · next h => exact h.le
      · exact le_refl M
    · refine le_trans ?_ (ih ..)
      split
      · next h => exact h.le
      · exact le_refl M

/-- Knuth–Moore fail-soft bounds for the alpha-beta move loop, relative
to the true (unpruned) values of the remaining moves joined with the
running maximum: if the loop's result stays below beta it is an upper
bound on the true value, and if it exceeds alpha it is a lower bound. -/
theorem nmLoop_bounds (g : Game Pos Move) (d : Nat) (p : Pos) (beta : Score)
    (ihd : ∀ (q : Pos) (a b : Score), a < b →
      ((negamax g d q a b).1 < b → (minimaxFull g d q).1 ≤ (negamax g d q a b).1) ∧
      (a < (negamax g d q a b).1 → (negamax g d q a b).1 ≤ (minimaxFull g d q).1)) :
    ∀ ms alpha M best, alpha < beta →
      ((nmLoop g (fun q a b => negamax g d q a b) p ms alpha beta M best).1 < beta →
        maxFold (fun m => -((minimaxFull g d (g.push p m)).1)) ms M ≤
          (nmLoop g (fun q a b => negamax g d q a b) p ms alpha beta M best).1) ∧
      (alpha < (nmLoop g (fun q a b => negamax g d q a b) p ms alpha beta M best).1 →
        (nmLoop g (fun q a b => negamax g d q a b) p ms alpha beta M best).1 ≤
          maxFold (fun m => -((minimaxFull g d (g.push p m)).1)) ms M) := by
  intro ms
  induction ms with
  | nil =>
    intro alpha M best _
    exact ⟨fun _ => le_refl M, fun _ => le_refl M⟩
  | cons m ms ih =>
    intro alpha M best hab
    have hchild := ihd (g.push p m) (-beta) (-alpha) (Score.negLt_iff.mpr hab)
    have hca : alpha < -(negamax g d (g.push p m) (-beta) (-alpha)).1 →
        -(negamax g d (g.push p m) (-beta) (-alpha)).1 ≤
          -((minimaxFull g d (g.push p m)).1) := by
      intro h
      exact Score.negLe_iff.mpr (hchild.1 (Score.lt_neg_comm.mp h))
    have hcb : -(negamax g d (g.push p m) (-beta) (-alpha)).1 < beta →
        -((minimaxFull g d (g.push p m)).1) ≤
          -(negamax g d (g.push p m) (-beta) (-alpha)).1 := by
      intro h
      exact Score.negLe_iff.mpr (hchild.2 (Score.neg_lt_comm.mp h))
    by_cases hcut : beta ≤ max alpha (-(negamax g d (g.push p m) (-beta) (-alpha)).1)
    · simp only [nmLoop, if_pos hcut, Score.ite_lt_eq_max]
      constructor
      · intro hlt
        exact absurd hcut (not_le_of_lt
          (max_lt hab (lt_of_le_of_lt (le_max_right M _) hlt)))
      · intro halpha
        show max M (-(negamax g d (g.push p m) (-beta) (-alpha)).1) ≤
          maxFold (fun m => -((minimaxFull g d (g.push p m)).1)) ms
            (max M (-((minimaxFull g d (g.push p m)).1)))
        rcases max_choice M (-(negamax g d (g.push p m) (-beta) (-alpha)).1) with hMe | hMe
        · rw [hMe]
          exact le_trans (le_max_left M _) (le_maxFold _ ms _)
        · rw [hMe]
          rw [hMe] at halpha
          exact le_trans (hca halpha)
            (le_trans (le_max_right M _) (le_maxFold _ ms _))
    · have hab' : max alpha (-(negamax g d (g.push p m) (-beta) (-alpha)).1) < beta :=
        lt_of_not_ge hcut
      have hebeta : -(negamax g d (g.push p m) (-beta) (-alpha)).1 < beta :=
        lt_of_le_of_lt (le_max_right _ _) hab'
      have htme := hcb hebeta
      simp only [nmLoop, if_neg hcut, Score.ite_lt_eq_max]
      obtain ⟨iha, ihb⟩ := ih (max alpha (-(negamax g d (g.push p m) (-beta) (-alpha)).1))
        (max M (-(negamax g d (g.push p m) (-beta) (-alpha)).1))
        (if M < -(negamax g d (g.push p m) (-beta) (-alpha)).1 then some m else best) hab'
      constructor
      · intro hlt
        refine le_trans ?_ (iha hlt)
        show maxFold (fun m => -((minimaxFull g d (g.push p m)).1)) ms
            (max M (-((minimaxFull g d (g.push p m)).1))) ≤
          maxFold (fun m => -((minimaxFull g d (g.push p m)).1)) ms
            (max M (-(negamax g d (g.push p m) (-beta) (-alpha)).1))
        exact maxFold_mono _ ms (max_le_max (le_refl M) htme)
      · intro halpha
        show (nmLoop g (fun q a b => negamax g d q a b) p ms
            (max alpha (-(negamax g d (g.push p m) (-beta) (-alpha)).1)) beta
            (max M (-(negamax g d (g.push p m) (-beta) (-alpha)).1))
            (if M < -(negamax g d (g.push p m) (-beta) (-alpha)).1 then some m
              else best)).1 ≤
          maxFold (fun m => -((minimaxFull g d (g.push p m)).1)) ms
            (max M (-((minimaxFull g d (g.push p m)).1)))
        by_cases hc2 : max alpha (-(negamax g d (g.push p m) (-beta) (-alpha)).1) <
            (nmLoop g (fun q a b => negamax g d q a b) p ms
              (max alpha (-(negamax g d (g.push p m) (-beta) (-alpha)).1)) beta
              (max M (-(negamax g d (g.push p m) (-beta) (-alpha)).1))
              (if M < -(negamax g d (g.push p m) (-beta) (-alpha)).1 then some m
                else best)).1
        · have h2 := ihb hc2
          rw [maxFold_decomp _ ms] at h2
          rw [maxFold_decomp _ ms]
          rcases le_max_iff.mp h2 with h3 | h3
          · rcases le_max_iff.mp h3 with h4 | h4
            · exact le_max_iff.mpr (Or.inl (le_trans h4 (le_max_left M _)))
            · have hae : alpha < -(negamax g d (g.push p m) (-beta) (-alpha)).1 :=
                lt_of_lt_of_le halpha h4
              exact le_max_iff.mpr (Or.inl (le_trans h4
                (le_trans (hca hae) (le_max_right M _))))
          · exact le_max_iff.mpr (Or.inr h3)
        · have h5 := le_of_not_lt hc2
          rcases le_max_iff.mp h5 with h6 | h6
          · exact absurd (lt_of_lt_of_le halpha h6) (lt_irrefl alpha)
          · have hae : alpha < -(negamax g d (g.push p m) (-beta) (-alpha)).1 :=
              lt_of_lt_of_le halpha h6
            exact le_trans h6 (le_trans (hca hae)
              (le_trans (le_max_right M _) (le_maxFold _ ms _)))

/-- Knuth–Moore fail-soft soundness of `negamax` against the unpruned
reference: with a valid window, a result below beta is an upper bound on
the true value and a result above alpha is a lower bound; in particular
a result strictly inside the window is exact. -/
theorem negamax_bounds (g : Game Pos Move) :
    ∀ (d : Nat) (p : Pos) (alpha beta : Score), alpha < beta →
      ((negamax g d p alpha beta).1 < beta →
        (minimaxFull g d p).1 ≤ (negamax g d p alpha beta).1) ∧
      (alpha < (negamax g d p alpha beta).1 →
        (negamax g d p alpha beta).1 ≤ (minimaxFull g d p).1) := by
  intro d
  induction d with
  | zero =>
    intro p alpha beta _
    exact ⟨fun _ => le_refl _, fun _ => le_refl _⟩
  | succ d ihd =>
    intro p alpha beta hab
    rw [negamax, minimaxFull]
    by_cases hgo : g.isGameOver p
    · rw [if_pos hgo, if_pos hgo]
      exact ⟨fun _ => le_refl _, fun _ => le_refl _⟩
    · rw [if_neg hgo, if_neg hgo, fullLoop_score]
      exact nmLoop_bounds g d p beta (fun q a b hab' => ihd q a b hab')
        (g.legalMoves p) alpha Score.negInf none hab

/-- With the full window at the root, the pruned loop and the unpruned
loop run in lockstep: every examined value that improves the running
maximum is exact (it lies strictly inside the child's window), every
other examined value is dominated in both runs, and no root cutoff can
fire before `+∞`. -/
theorem nmLoop_eq_fullLoop (g : Game Pos Move) (d : Nat) (p : Pos)
    (hfin : ∀ (q : Pos) (a b : Score), ∃ v, (negamax g d q a b).1 = Score.fin v) :
    ∀ ms M best, M ≠ Score.posInf →
      nmLoop g (fun q a b => negamax g d q a b) p ms M Score.posInf M best =
        fullLoop g (fun q => (minimaxFull g d q).1) p ms M best := by
  intro ms
  induction ms with
  | nil => intro M best _; rfl
  | cons m ms ih =>
    intro M best hM
    obtain ⟨v, hv⟩ := hfin (g.push p m) (-Score.posInf) (-M)
    have hwin : -Score.posInf < -M := Score.negLt_iff.mpr (Score.lt_posInf_iff.mpr hM)
    have hchild := negamax_bounds g d (g.push p m) (-Score.posInf) (-M) hwin
    have hcb : -((minimaxFull g d (g.push p m)).1) ≤
        -(negamax g d (g.push p m) (-Score.posInf) (-M)).1 := by
      refine Score.negLe_iff.mpr (hchild.2 ?_)
      rw [hv]
      exact Score.negInf_lt_fin v
    have hefin : -(negamax g d (g.push p m) (-Score.posInf) (-M)).1 = Score.fin (-v) := by
      rw [hv]; rfl
    have hnocut : ¬ Score.posInf ≤
        max M (-(negamax g d (g.push p m) (-Score.posInf) (-M)).1) := by
      intro hle
      have hb : -(negamax g d (g.push p m) (-Score.posInf) (-M)).1 ≠ Score.posInf := by
        rw [hefin]
        exact fun h => Score.noConfusion h
      exact Score.max_ne_posInf hM hb (le_antisymm (Score.le_posInf _) hle)
    rw [nmLoop, if_neg hnocut, fullLoop]
    by_cases hMe : M < -(negamax g d (g.push p m) (-Score.posInf) (-M)).1
    · have hca : -(negamax g d (g.push p m) (-Score.posInf) (-M)).1 ≤
          -((minimaxFull g d (g.push p m)).1) := by
        refine Score.negLe_iff.mpr (hchild.1 ?_)
        exact Score.lt_neg_comm.mp hMe
      have hexact : -((minimaxFull g d (g.push p m)).1) =
          -(negamax g d (g.push p m) (-Score.posInf) (-M)).1 :=
        le_antisymm hcb hca
      rw [if_pos hMe, if_pos hMe]
      have hMtrue : M < -((minimaxFull g d (g.push p m)).1) := by
        rw [hexact]; exact hMe
      rw [if_pos hMtrue]
      have hmax : max M (-(negamax g d (g.push p m) (-Score.posInf) (-M)).1) =
          -(negamax g d (g.push p m) (-Score.posInf) (-M)).1 :=
        max_eq_right hMe.le
      rw [hmax, hexact]
      refine ih _ (some m) ?_
      rw [hefin]
      exact fun h => Score.noConfusion h
    · have hMtrue : ¬ M < -((minimaxFull g d (g.push p m)).1) := by
        intro h
        exact hMe (lt_of_lt_of_le h hcb)
      rw [if_neg hMe, if_neg hMe, if_neg hMtrue]
      have hmax : max M (-(negamax g d (g.push p m) (-Score.posInf) (-M)).1) = M :=
        max_eq_left (le_of_not_lt hMe)
      rw [hmax]
      exact ih M best hM

/-- C1: for every position and depth, `negamax` with the full window
`(-inf, +inf)` returns exactly the `(score, move)` pair of the reference
unpruned minimax of the same depth and move order — alpha-beta cutoffs
never change the result.  The hypothesis is the spec's §4.2 rules-engine
consistency assumption (no legal moves only at terminal positions),
without which the spec itself declares the behaviour undefined. -/
theorem negamax_eq_minimaxFull (g : Game Pos Move) (hWf : RulesConsistent g)
    (d : Nat) (p : Pos) :
    negamax g d p Score.negInf Score.posInf = minimaxFull g d p := by
  cases d with
  | zero => rfl
  | succ d =>
    rw [negamax, minimaxFull]
    by_cases hgo : g.isGameOver p
    · rw [if_pos hgo, if_pos hgo]
    · rw [if_neg hgo, if_neg hgo]
      exact nmLoop_eq_fullLoop g d p (fun q a b => negamax_fin g hWf d q a b)
        (g.legalMoves p) Score.negInf none (fun h => Score.noConfusion h)

/-- Witness for C1: on `toyGame` at depth 3, the pruned and unpruned
searches return the same concrete `(score, move)` pair. -/
theorem negamax_eq_minimaxFull_witness :
    negamax toyGame 3 [] Score.negInf Score.posInf = minimaxFull toyGame 3 [] ∧
    minimaxFull toyGame 3 [] = (Score.fin 3, some 1) :=
  ⟨negamax_eq_minimaxFull toyGame toyGame_consistent 3 [], by decide⟩

/-! ### Feature-extractor lemmas -/

/-- C4: for every board, `extract_features` returns a vector of the
fixed length `L = 37`, in one fixed field order, with no error path:
the result is one literal list of 37 entries, each of which is total. -/
theorem extract_features_length (b : Board) : (extract_features b).length = 37 := rfl

theorem ByColor.get_upd {X : Type} (v : ByColor X) (pc c : Bool) (f : X → X) :
    (v.upd pc f).get c = if pc = c then f (v.get c) else v.get c := by
  cases pc <;> cases c <;> simp [ByColor.upd, ByColor.get]

@[simp] theorem matBlock_allPawns (piece : Piece) (acc : FeatAcc) :
    (matBlock piece acc).allPawns = acc.allPawns := by
  unfold matBlock; split_ifs <;> rfl

@[simp] theorem matBlock_pawnFiles (piece : Piece) (acc : FeatAcc) :
    (matBlock piece acc).pawnFiles = acc.pawnFiles := by
  unfold matBlock; split_ifs <;> rfl

@[simp] theorem countBlock_allPawns (piece : Piece) (acc : FeatAcc) :
    (countBlock piece acc).allPawns = acc.allPawns := by
  unfold countBlock; split_ifs <;> rfl

@[simp] theorem countBlock_pawnFiles (piece : Piece) (acc : FeatAcc) :
    (countBlock piece acc).pawnFiles = acc.pawnFiles := by
  unfold countBlock; split_ifs <;> rfl

@[simp] theorem centerBlock_allPawns (sq : Nat) (piece : Piece) (acc : FeatAcc) :
    (centerBlock sq piece acc).allPawns = acc.allPawns := by
  unfold centerBlock; split_ifs <;> rfl

@[simp] theorem centerBlock_pawnFiles (sq : Nat) (piece : Piece) (acc : FeatAcc) :
    (centerBlock sq piece acc).pawnFiles = acc.pawnFiles := by
  unfold centerBlock; split_ifs <;> rfl

@[simp] theorem halfBlock_allPawns (sq : Nat) (piece : Piece) (acc : FeatAcc) :
    (halfBlock sq piece acc).allPawns = acc.allPawns := by
  unfold halfBlock; split_ifs <;> rfl

@[simp] theorem halfBlock_pawnFiles (sq : Nat) (piece : Piece) (acc : FeatAcc) :
    (halfBlock sq piece acc).pawnFiles = acc.pawnFiles := by
  unfold halfBlock; split_ifs <;> rfl

@[simp] theorem outpostBlock_allPawns (b : Board) (sq : Nat) (piece : Piece) (acc : FeatAcc) :
    (outpostBlock b sq piece acc).allPawns = acc.allPawns := by
  simp only [outpostBlock]; split_ifs <;> rfl

@[simp] theorem outpostBlock_pawnFiles (b : Board) (sq : Nat) (piece : Piece) (acc : FeatAcc) :
    (outpostBlock b sq piece acc).pawnFiles = acc.pawnFiles := by
  simp only [outpostBlock]; split_ifs <;> rfl

@[simp] theorem devBlock_allPawns (sq : Nat) (piece : Piece) (acc : FeatAcc) :
    (devBlock sq piece acc).allPawns = acc.allPawns := by
  unfold devBlock; split_ifs <;> rfl

@[simp] theorem devBlock_pawnFiles (sq : Nat) (piece : Piece) (acc : FeatAcc) :
    (devBlock sq piece acc).pawnFiles = acc.pawnFiles := by
  unfold devBlock; split_ifs <;> rfl

@[simp] theorem defBlock_allPawns (b : Board) (sq : Nat) (piece : Piece) (acc : FeatAcc) :
    (defBlock b sq piece acc).allPawns = acc.allPawns := by
  unfold defBlock; split_ifs <;> rfl

@[simp] theorem defBlock_pawnFiles (b : Board) (sq : Nat) (piece : Piece) (acc : FeatAcc) :
    (defBlock b sq piece acc).pawnFiles = acc.pawnFiles := by
  unfold defBlock; split_ifs <;> rfl

theorem pawnBlock_allPawns (sq : Nat) (piece : Piece) (acc : FeatAcc) (c : Bool) :
    (pawnBlock sq piece acc).allPawns.get c =
      acc.allPawns.get c ++
        (if piece.color = c ∧ piece.ptype = PieceType.pawn then [sq] else []) := by
  rcases eq_or_ne piece.ptype PieceType.pawn with hpt | hpt
  · simp only [pawnBlock, if_pos hpt, ByColor.get_upd]
    by_cases hc : piece.color = c
    · simp [hc, hpt]
    · simp [hc, hpt]
  · simp only [pawnBlock, if_neg hpt]
    simp [hpt]

theorem pawnBlock_pawnFiles (sq : Nat) (piece : Piece) (acc : FeatAcc) (c : Bool) :
    (pawnBlock sq piece acc).pawnFiles.get c =
      if piece.color = c ∧ piece.ptype = PieceType.pawn then
        insert (fileOf sq) (acc.pawnFiles.get c)
      else acc.pawnFiles.get c := by
  rcases eq_or_ne piece.ptype PieceType.pawn with hpt | hpt
  · simp only [pawnBlock, if_pos hpt, ByColor.get_upd]
    by_cases hc : piece.color = c
    · simp [hc, hpt]
    · simp [hc, hpt]
  · simp only [pawnBlock, if_neg hpt]
    simp [hpt]

theorem pawnBlock_materialWhite (sq : Nat) (piece : Piece) (acc : FeatAcc) :
    (pawnBlock sq piece acc).materialWhite = acc.materialWhite := by
  unfold pawnBlock; split_ifs <;> rfl

theorem pawnBlock_materialBlack (sq : Nat) (piece : Piece) (acc : FeatAcc) :
    (pawnBlock sq piece acc).materialBlack = acc.materialBlack := by
  unfold pawnBlock; split_ifs <;> rfl

theorem countBlock_materialWhite (piece : Piece) (acc : FeatAcc) :
    (countBlock piece acc).materialWhite = acc.materialWhite := by
  unfold countBlock; split_ifs <;> rfl

theorem countBlock_materialBlack (piece : Piece) (acc : FeatAcc) :
    (countBlock piece acc).materialBlack = acc.materialBlack := by
  unfold countBlock; split_ifs <;> rfl

theorem centerBlock_materialWhite (sq : Nat) (piece : Piece) (acc : FeatAcc) :
    (centerBlock sq piece acc).materialWhite = acc.materialWhite := by
  unfold centerBlock; split_ifs <;> rfl

theorem centerBlock_materialBlack (sq : Nat) (piece : Piece) (acc : FeatAcc) :
    (centerBlock sq piece acc).materialBlack = acc.materialBlack := by
  unfold centerBlock; split_ifs <;> rfl

theorem halfBlock_materialWhite (sq : Nat) (piece : Piece) (acc : FeatAcc) :
    (halfBlock sq piece acc).materialWhite = acc.materialWhite := by
  unfold halfBlock; split_ifs <;> rfl

theorem halfBlock_materialBlack (sq : Nat) (piece : Piece) (acc : FeatAcc) :
    (halfBlock sq piece acc).materialBlack = acc.materialBlack := by
  unfold halfBlock; split_ifs <;> rfl

theorem outpostBlock_materialWhite (b : Board) (sq : Nat) (piece : Piece) (acc : FeatAcc) :
    (outpostBlock b sq piece acc).materialWhite = acc.materialWhite := by
  simp only [outpostBlock]; split_ifs <;> rfl

theorem outpostBlock_materialBlack (b : Board) (sq : Nat) (piece : Piece) (acc : FeatAcc) :
    (outpostBlock b sq piece acc).materialBlack = acc.materialBlack := by
  simp only [outpostBlock]; split_ifs <;> rfl

theorem devBlock_materialWhite (sq : Nat) (piece : Piece) (acc : FeatAcc) :
    (devBlock sq piece acc).materialWhite = acc.materialWhite := by
  unfold devBlock; split_ifs <;> rfl

theorem devBlock_materialBlack (sq : Nat) (piece : Piece) (acc : FeatAcc) :
    (devBlock sq piece acc).materialBlack = acc.materialBlack := by
  unfold devBlock; split_ifs <;> rfl

theorem defBlock_materialWhite (b : Board) (sq : Nat) (piece : Piece) (acc : FeatAcc) :
    (defBlock b sq piece acc).materialWhite = acc.materialWhite := by
  unfold defBlock; split_ifs <;> rfl

theorem defBlock_materialBlack (b : Board) (sq : Nat) (piece : Piece) (acc : FeatAcc) :
    (defBlock b sq piece acc).materialBlack = acc.materialBlack := by
  unfold defBlock; split_ifs <;> rfl

theorem matBlock_materialWhite (piece : Piece) (acc : FeatAcc) :
    (matBlock piece acc).materialWhite =
      acc.materialWhite + (if piece.color then pieceValue piece.ptype else 0) := by
  unfold matBlock
  split_ifs with h
  · simp [h]
  · simp [h]

theorem matBlock_materialBlack (piece : Piece) (acc : FeatAcc) :
    (matBlock piece acc).materialBlack =
      acc.materialBlack + (if piece.color then 0 else pieceValue piece.ptype) := by
  unfold matBlock
  split_ifs with h
  · simp [h]
  · simp [h]

/-- One pass iteration appends the square to `all_pawns[c]` exactly when
it holds a pawn of colour `c`. -/
theorem featStep_allPawns (b : Board) (acc : FeatAcc) (sq : Nat) (c : Bool) :
    (featStep b acc sq).allPawns.get c =
      acc.allPawns.get c ++
        (if b.pieceAt sq = some ⟨c, PieceType.pawn⟩ then [sq] else []) := by
  cases hpa : b.pieceAt sq with
  | none => simp [featStep, hpa]
  | some piece =>
    simp only [featStep, hpa, defBlock_allPawns, devBlock_allPawns, outpostBlock_allPawns,
      pawnBlock_allPawns, halfBlock_allPawns, centerBlock_allPawns, countBlock_allPawns,
      matBlock_allPawns, Option.some.injEq]
    obtain ⟨pc, pt⟩ := piece
    simp only [Piece.mk.injEq]

/-- One pass iteration inserts the file into `pawn_files[c]` exactly
when the square holds a pawn of colour `c`. -/
theorem featStep_pawnFiles (b : Board) (acc : FeatAcc) (sq : Nat) (c : Bool) :
    (featStep b acc sq).pawnFiles.get c =
      if b.pieceAt sq = some ⟨c, PieceType.pawn⟩ then
        insert (fileOf sq) (acc.pawnFiles.get c)
      else acc.pawnFiles.get c := by
  cases hpa : b.pieceAt sq with
  | none => simp [featStep, hpa]
  | some piece =>
    simp only [featStep, hpa, defBlock_pawnFiles, devBlock_pawnFiles, outpostBlock_pawnFiles,
      pawnBlock_pawnFiles, halfBlock_pawnFiles, centerBlock_pawnFiles, countBlock_pawnFiles,
      matBlock_pawnFiles, Option.some.injEq]
    obtain ⟨pc, pt⟩ := piece
    simp only [Piece.mk.injEq]

/-- One pass iteration adds the square's white material contribution. -/
theorem featStep_materialWhite (b : Board) (acc : FeatAcc) (sq : Nat) :
    (featStep b acc sq).materialWhite = acc.materialWhite + whiteContrib b sq := by
  cases hpa : b.pieceAt sq with
  | none => simp [featStep, hpa, whiteContrib]
  | some piece =>
    simp only [featStep, hpa, defBlock_materialWhite, devBlock_materialWhite,
      outpostBlock_materialWhite, pawnBlock_materialWhite, halfBlock_materialWhite,
      centerBlock_materialWhite, countBlock_materialWhite, matBlock_materialWhite,
      whiteContrib]

/-- One pass iteration adds the square's black material contribution. -/
theorem featStep_materialBlack (b : Board) (acc : FeatAcc) (sq : Nat) :
    (featStep b acc sq).materialBlack = acc.materialBlack + blackContrib b sq := by
  cases hpa : b.pieceAt sq with
  | none => simp [featStep, hpa, blackContrib]
  | some piece =>
    simp only [featStep, hpa, defBlock_materialBlack, devBlock_materialBlack,
      outpostBlock_materialBlack, pawnBlock_materialBlack, halfBlock_materialBlack,
      centerBlock_materialBlack, countBlock_materialBlack, matBlock_materialBlack,
      blackContrib]

theorem foldl_featStep_allPawns (b : Board) (c : Bool) :
    ∀ (L : List Nat) (acc : FeatAcc),
      (L.foldl (featStep b) acc).allPawns.get c =
        acc.allPawns.get c ++
          L.filter (fun sq => decide (b.pieceAt sq = some ⟨c, PieceType.pawn⟩)) := by
  intro L
  induction L with
  | nil => intro acc; simp
  | cons sq L ih =>
    intro acc
    rw [List.foldl_cons, ih, featStep_allPawns, List.filter_cons]
    by_cases h : b.pieceAt sq = some ⟨c, PieceType.pawn⟩
    · simp [h]
    · simp [h]

theorem foldl_featStep_pawnFiles (b : Board) (c : Bool) :
    ∀ (L : List Nat) (acc : FeatAcc),
      (L.foldl (featStep b) acc).pawnFiles.get c =
        acc.pawnFiles.get c ∪
          ((L.filter (fun sq => decide (b.pieceAt sq = some ⟨c, PieceType.pawn⟩))).map
            fileOf).toFinset := by
  intro L
  induction L with
  | nil => intro acc; simp
  | cons sq L ih =>
    intro acc
    rw [List.foldl_cons, ih, featStep_pawnFiles, List.filter_cons]
    by_cases h : b.pieceAt sq = some ⟨c, PieceType.pawn⟩
    · rw [if_pos h, if_pos (by simpa using h), List.map_cons, List.toFinset_cons,
        Finset.union_insert, Finset.insert_union]
    · rw [if_neg h, if_neg (by simpa using h)]

theorem foldl_featStep_materialWhite (b : Board) :
    ∀ (L : List Nat) (acc : FeatAcc),
      (L.foldl (featStep b) acc).materialWhite =
        acc.materialWhite + (L.map (whiteContrib b)).sum := by
  intro L
  induction L with
  | nil => intro acc; simp
  | cons sq L ih =>
    intro acc
    rw [List.foldl_cons, ih, featStep_materialWhite, List.map_cons, List.sum_cons]
    omega

theorem foldl_featStep_materialBlack (b : Board) :
    ∀ (L : List Nat) (acc : FeatAcc),
      (L.foldl (featStep b) acc).materialBlack =
        acc.materialBlack + (L.map (blackContrib b)).sum := by
  intro L
  induction L with
  | nil => intro acc; simp
  | cons sq L ih =>
    intro acc
    rw [List.foldl_cons, ih, featStep_materialBlack, List.map_cons, List.sum_cons]
    omega

/-- The accumulated `all_pawns[c]` is the pawn-square list of the raw
board, in square order. -/
theorem featAcc_allPawns (b : Board) (c : Bool) :
    (featAcc b).allPawns.get c = pawnSquares b c := by
  rw [featAcc, foldl_featStep_allPawns]
  cases c <;> rfl

/-- The accumulated `pawn_files[c]` is the set of files of the raw
board's `c`-pawns. -/
theorem featAcc_pawnFiles (b : Board) (c : Bool) :
    (featAcc b).pawnFiles.get c = ((pawnSquares b c).map fileOf).toFinset := by
  rw [featAcc, foldl_featStep_pawnFiles]
  have hinit : (initAcc.pawnFiles.get c) = ∅ := by cases c <;> rfl
  rw [hinit, Finset.empty_union]
  rfl

/-- `material_white` is the sum of the per-square white contributions. -/
theorem featAcc_materialWhite (b : Board) :
    (featAcc b).materialWhite = ((List.range 64).map (whiteContrib b)).sum := by
  rw [featAcc, foldl_featStep_materialWhite]
  show (0 : Int) + _ = _
  omega

/-- `material_black` is the sum of the per-square black contributions. -/
theorem featAcc_materialBlack (b : Board) :
    (featAcc b).materialBlack = ((List.range 64).map (blackContrib b)).sum := by
  rw [featAcc, foldl_featStep_materialBlack]
  show (0 : Int) + _ = _
  omega

/-- On the mirrored board, a square's white contribution is the black
contribution of its reflection on the original board. -/
theorem whiteContrib_mirror (b : Board) (sq : Nat) :
    whiteContrib (mirrorBoard b) sq = blackContrib b (mirrorSq sq) := by
  simp only [whiteContrib, blackContrib, mirrorBoard]
  cases b.pieceAt (mirrorSq sq) with
  | none => rfl
  | some p =>
    cases hc : p.color <;> simp [hc]

/-- On the mirrored board, a square's black contribution is the white
contribution of its reflection on the original board. -/
theorem blackContrib_mirror (b : Board) (sq : Nat) :
    blackContrib (mirrorBoard b) sq = whiteContrib b (mirrorSq sq) := by
  simp only [whiteContrib, blackContrib, mirrorBoard]
  cases b.pieceAt (mirrorSq sq) with
  | none => rfl
  | some p =>
    cases hc : p.color <;> simp [hc]

/-- The vertical reflection permutes the 64 squares. -/
theorem mirrorSq_perm : ((List.range 64).map mirrorSq).Perm (List.range 64) := by
  decide

theorem sum_map_mirrorSq (f : Nat → Int) :
    ((List.range 64).map (fun sq => f (mirrorSq sq))).sum =
      ((List.range 64).map f).sum := by
  have h := (mirrorSq_perm.map f).sum_eq
  rw [List.map_map] at h
  exact h

/-- C9: the signed material-difference feature (index 2) of the mirror
of a position is the negation of the same feature of the position. -/
theorem extract_features_material_mirror (b : Board) :
    (extract_features (mirrorBoard b)).get? 2 =
      ((extract_features b).get? 2).map (fun v : Int => -v) := by
  have h2 : ∀ b' : Board, (extract_features b').get? 2 =
      some ((featAcc b').materialWhite - (featAcc b').materialBlack) := fun _ => rfl
  rw [h2, h2]
  have hw : (featAcc (mirrorBoard b)).materialWhite = (featAcc b).materialBlack := by
    rw [featAcc_materialWhite, featAcc_materialBlack]
    have hfun : whiteContrib (mirrorBoard b) = fun sq => blackContrib b (mirrorSq sq) :=
      funext (whiteContrib_mirror b)
    rw [hfun, sum_map_mirrorSq]
  have hb : (featAcc (mirrorBoard b)).materialBlack = (featAcc b).materialWhite := by
    rw [featAcc_materialBlack, featAcc_materialWhite]
    have hfun : blackContrib (mirrorBoard b) = fun sq => whiteContrib b (mirrorSq sq) :=
      funext (blackContrib_mirror b)
    rw [hfun, sum_map_mirrorSq]
  rw [hw, hb, Option.map]
  congr 1
  omega

/-- The accumulated per-file pawn count agrees with the raw-board
count. -/
theorem pawnCountOnFile_raw (b : Board) (c : Bool) (f : Int) :
    pawnCountOnFile (featAcc b) c f = rawPawnsOnFile b c f := by
  rw [pawnCountOnFile, featAcc_allPawns]
  rfl

/-- A file with at least one `c`-pawn belongs to the accumulated
`pawn_files[c]`. -/
theorem mem_pawnFiles_of_pos (b : Board) (c : Bool) (f : Int)
    (h : 0 < rawPawnsOnFile b c f) : f ∈ (featAcc b).pawnFiles.get c := by
  rw [featAcc_pawnFiles]
  rw [rawPawnsOnFile, List.countP_pos_iff] at h
  obtain ⟨sq, hsq, hf⟩ := h
  rw [List.mem_toFinset, List.mem_map]
  exact ⟨sq, hsq, by simpa using hf⟩

/-- C8: in a position where side `s` has more than one pawn on exactly
one file and no other file is doubled for either side, the doubled-pawn
summand of `extract_features` is `1` for that side and `0` for the
opponent, and the doubled-pawn feature (index 26) equals `1`. -/
theorem extract_features_doubled (b : Board) (s : Bool) (f0 : Int)
    (h1 : 1 < rawPawnsOnFile b s f0)
    (h2 : ∀ f : Int, f ≠ f0 → rawPawnsOnFile b s f ≤ 1)
    (h3 : ∀ f : Int, rawPawnsOnFile b (!s) f ≤ 1) :
    doubledSummand (featAcc b) s = 1 ∧ doubledSummand (featAcc b) (!s) = 0 ∧
    (extract_features b).get? 26 = some 1 := by
  have hzero : doubledSummand (featAcc b) (!s) = 0 := by
    rw [doubledSummand]
    refine Finset.sum_eq_zero ?_
    intro f _
    rw [pawnCountOnFile_raw]
    rw [if_neg (not_lt_of_ge (h3 f))]
  have hone : doubledSummand (featAcc b) s = 1 := by
    rw [doubledSummand]
    have hsum : Finset.sum ((featAcc b).pawnFiles.get s)
        (fun f => if 1 < pawnCountOnFile (featAcc b) s f then (1 : Int) else 0) =
        Finset.sum ((featAcc b).pawnFiles.get s)
          (fun f => if f = f0 then (1 : Int) else 0) := by
      refine Finset.sum_congr rfl ?_
      intro f _
      rw [pawnCountOnFile_raw]
      by_cases hf : f = f0
      · rw [if_pos (hf ▸ h1), if_pos hf]
      · rw [if_neg (not_lt_of_ge (h2 f hf)), if_neg hf]
    rw [hsum, Finset.sum_ite_eq' ((featAcc b).pawnFiles.get s) f0 (fun _ => (1 : Int))]
    rw [if_pos (mem_pawnFiles_of_pos b s f0 (lt_trans Nat.zero_lt_one h1))]
  refine ⟨hone, hzero, ?_⟩
  have hfeat : (extract_features b).get? 26 = some (doubledFeature (featAcc b)) := rfl
  rw [hfeat, doubledFeature]
  cases s with
  | true =>
    rw [hone, show (false : Bool) = !true from rfl, hzero]
    norm_num
  | false =>
    rw [hone, show (true : Bool) = !false from rfl, hzero]
    norm_num

/-- Witness for C8: on the concrete board with white pawns a2/a3 only,
white's doubled-pawn summand is 1, black's is 0, and feature 26 is 1. -/
theorem extract_features_doubled_witness :
    (1 : Nat) < rawPawnsOnFile doubledBoard true 0 ∧
    doubledSummand (featAcc doubledBoard) true = 1 ∧
    doubledSummand (featAcc doubledBoard) false = 0 ∧
    (extract_features doubledBoard).get? 26 = some 1 := by
  have hps : pawnSquares doubledBoard true = [8, 16] := by decide
  have hpsb : pawnSquares doubledBoard false = [] := by decide
  have h2 : ∀ f : Int, f ≠ 0 → rawPawnsOnFile doubledBoard true f ≤ 1 := by
    intro f hf
    have h8 : (fileOf 8 == f) = false := by
      rw [beq_eq_false_iff_ne]
      intro h
      apply hf
      rw [← h]
      rfl
    have h16 : (fileOf 16 == f) = false := by
      rw [beq_eq_false_iff_ne]
      intro h
      apply hf
      rw [← h]
      rfl
    rw [rawPawnsOnFile, hps]
    simp [List.countP_cons, h8, h16]
  have h3 : ∀ f : Int, rawPawnsOnFile doubledBoard false f ≤ 1 := by
    intro f
    rw [rawPawnsOnFile, hpsb]
    simp
  have h1 : (1 : Nat) < rawPawnsOnFile doubledBoard true 0 := by decide
  have h := extract_features_doubled doubledBoard true 0 h1 h2 h3
  exact ⟨h1, h.1, h.2.1, h.2.2⟩

end ChessRF
